import Mathlib

/-!
Verification of the chessify FEN codec.

A shallow embedding of the chessify chess-position library
(`src/bitboard.rs`, `src/board.rs`, `src/castling_rights.rs`, `src/color.rs`,
`src/piece.rs`, `src/square.rs`) together with proofs about its FEN parsing,
square coordinate codec, castling-rights mask, and board invariants.

Modelling conventions:
* Rust strings are modelled as `List Char` (a string is its sequence of
  characters; `len` is the character count).  All inputs appearing in the
  properties below are ASCII, where this coincides with Rust's byte length.
* Rust `u8` / `u64` / `usize` values are modelled as `Nat`, with explicit
  masking (`&&& 63`, `% 256`, `< 2 ^ 64`) exactly where the Rust code casts
  or where overflow semantics matter.
* Fallible Rust functions (returning `Result<_, ChessifyError>` or
  `Result<_, Box<dyn Error>>`) are modelled with `Except ChessError _`;
  `ChessError` mirrors the `ChessifyError` enum, with one extra constructor
  `intParse` standing for the boxed `ParseIntError` produced by
  `str::parse::<usize>()`.
* Unicode-aware Rust helpers (`char::is_whitespace`, `str::to_lowercase`)
  are modelled on the Unicode white-space table and ASCII lowercasing
  respectively; every input in the claims is ASCII.
-/

deriving instance DecidableEq for Except

namespace Chessify

/-- The `Color` enum from `src/color.rs`. -/
inductive Color where
  | White
  | Black
deriving DecidableEq, Repr

/-- The `Piece` enum from `src/piece.rs`. -/
inductive Piece where
  | Pawn
  | Knight
  | Bishop
  | Rook
  | Queen
  | King
deriving DecidableEq, Repr

/-- The `CastlingStatus` enum from `src/castling_rights.rs`. -/
inductive CastlingStatus where
  | NotAvailable
  | Kingside
  | Queenside
  | Both
deriving DecidableEq, Repr

/-- The `ChessifyError` enum from `src/error.rs`.  The upstream fallible
functions return `Box<dyn Error>`; besides `ChessifyError` variants the only
other error that can occur in the modelled code is the `ParseIntError`
raised by `str::parse::<usize>()`, modelled by the extra constructor
`intParse` (carrying the offending text). -/
inductive ChessError where
  | BoardSetup (s : List Char)
  | InvalidFen (s : List Char)
  | UnknownCastlingRights (s : List Char)
  | UnknownColor (s : List Char)
  | UnknownSquare (s : List Char)
  | intParse (s : List Char)
deriving DecidableEq, Repr

/-- `char::is_whitespace` (the Unicode `White_Space` property), used by
`str::split_whitespace` in `BoardBuilder::try_from_fen`. -/
def isRustWhitespace (c : Char) : Bool :=
  (9 ≤ c.toNat && c.toNat ≤ 13) || c.toNat == 32 || c.toNat == 0x85 ||
  c.toNat == 0xA0 || c.toNat == 0x1680 ||
  (0x2000 ≤ c.toNat && c.toNat ≤ 0x200A) ||
  c.toNat == 0x2028 || c.toNat == 0x2029 || c.toNat == 0x202F ||
  c.toNat == 0x205F || c.toNat == 0x3000

/-- Helper for `splitWhitespace`: `acc` is the current (reversed) in-progress
word. -/
def splitWsAux : List Char → List Char → List (List Char)
  | [], acc => if acc = [] then [] else [acc.reverse]
  | c :: cs, acc =>
    if isRustWhitespace c then
      if acc = [] then splitWsAux cs []
      else acc.reverse :: splitWsAux cs []
    else splitWsAux cs (c :: acc)

/-- `str::split_whitespace().collect::<Vec<_>>()`: maximal runs of
non-white-space characters, empty pieces dropped. -/
def splitWhitespace (s : List Char) : List (List Char) :=
  splitWsAux s []

/-- `Color::try_from_str` from `src/color.rs`: looks only at the first
character; `w`/`W` is White, `b`/`B` is Black, anything else (or an empty
string) is an `UnknownColor` error carrying the whole string. -/
def colorTryFromStr (s : List Char) : Except ChessError Color :=
  match s with
  | [] => .error (.UnknownColor s)
  | c :: _ =>
    if c = 'w' ∨ c = 'W' then .ok .White
    else if c = 'b' ∨ c = 'B' then .ok .Black
    else .error (.UnknownColor s)

/-- `impl fmt::Display for Color`: `W` / `B`. -/
def colorDisplay : Color → List Char
  | .White => ['W']
  | .Black => ['B']

/-- `CastlingStatus::try_from_u8` from `src/castling_rights.rs`:
the fixed table 0 ↦ NotAvailable, 1 ↦ Queenside, 2 ↦ Kingside, 3 ↦ Both. -/
def castlingStatusTryFromU8 (b : Nat) : Except ChessError CastlingStatus :=
  match b with
  | 0 => .ok .NotAvailable
  | 1 => .ok .Queenside
  | 2 => .ok .Kingside
  | 3 => .ok .Both
  | _ => .error (.UnknownCastlingRights (Nat.toDigits 10 b))

/-- `CastlingStatus::from_u8` unwraps `try_from_u8`; the panic on the error
branch is modelled as `none`. -/
def castlingStatusFromU8 (b : Nat) : Option CastlingStatus :=
  (castlingStatusTryFromU8 b).toOption

/-- A `CastlingRights` value is its 4-bit `u8` mask. -/
abbrev CastlingRightsMask := Nat

/-- `CastlingRights::for_color`: White reads the upper two bits
(`(mask & 12) >> 2`), Black the lower two (`mask & 3`), each mapped through
`CastlingStatus::from_u8`. -/
def forColor (mask : CastlingRightsMask) (c : Color) : Option CastlingStatus :=
  match c with
  | .White => castlingStatusFromU8 ((mask &&& 12) >>> 2)
  | .Black => castlingStatusFromU8 (mask &&& 3)

/-- The character scan inside `impl TryFrom<&str> for CastlingRights`:
fold the mask over the characters, `K`/`Q`/`k`/`q` set bits 3/2/1/0, any
other character aborts with `InvalidFen` carrying the whole string. -/
def castlingScan (s : List Char) : Nat → List Char → Except ChessError CastlingRightsMask
  | b, [] => .ok b
  | b, c :: cs =>
    if c = 'K' then castlingScan s (b ||| (1 <<< 3)) cs
    else if c = 'Q' then castlingScan s (b ||| (1 <<< 2)) cs
    else if c = 'k' then castlingScan s (b ||| (1 <<< 1)) cs
    else if c = 'q' then castlingScan s (b ||| (1 <<< 0)) cs
    else .error (.InvalidFen s)

/-- `impl TryFrom<&str> for CastlingRights` from `src/castling_rights.rs`. -/
def castlingTryFrom (s : List Char) : Except ChessError CastlingRightsMask :=
  castlingScan s 0 s

/-- ASCII lowercasing of one character, modelling `str::to_lowercase`
(all inputs relevant to the claims are ASCII). -/
def toLowerChar (c : Char) : Char := c.toLower

/-- `impl TryFrom<char> for File` from `src/square.rs`:
`a`..`h` map to 0..7, anything else is `UnknownSquare` carrying the
character. -/
def fileTryFromChar (c : Char) : Except ChessError Nat :=
  if c = 'a' then .ok 0
  else if c = 'b' then .ok 1
  else if c = 'c' then .ok 2
  else if c = 'd' then .ok 3
  else if c = 'e' then .ok 4
  else if c = 'f' then .ok 5
  else if c = 'g' then .ok 6
  else if c = 'h' then .ok 7
  else .error (.UnknownSquare [c])

/-- `impl TryFrom<char> for Rank` from `src/square.rs`: the digit `d`
maps to row `8 - d` (so `'1' ↦ 7`, …, `'8' ↦ 0`); anything else is
`UnknownSquare` carrying the character. -/
def rankTryFromChar (c : Char) : Except ChessError Nat :=
  if c = '1' then .ok 7
  else if c = '2' then .ok 6
  else if c = '3' then .ok 5
  else if c = '4' then .ok 4
  else if c = '5' then .ok 3
  else if c = '6' then .ok 2
  else if c = '7' then .ok 1
  else if c = '8' then .ok 0
  else .error (.UnknownSquare [c])

/-- `impl fmt::Display for File`: rows 0..7 print `a`..`h`; any other
value makes the formatter fail (`fmt::Error`), modelled as `none`. -/
def fileDisplay (f : Nat) : Option (List Char) :=
  if f = 0 then some ['a']
  else if f = 1 then some ['b']
  else if f = 2 then some ['c']
  else if f = 3 then some ['d']
  else if f = 4 then some ['e']
  else if f = 5 then some ['f']
  else if f = 6 then some ['g']
  else if f = 7 then some ['h']
  else none

/-- `impl fmt::Display for Rank`: prints the decimal rendering of
`1 + row`. -/
def rankDisplay (r : Nat) : List Char := Nat.toDigits 10 (1 + r)

/-- A `Square` is the `u8` payload of the Rust `Square(pub u8)` newtype. -/
abbrev SquareIdx := Nat

/-- `Square::new(b: u8)`: `b & 63`. -/
def squareNew (b : Nat) : SquareIdx := (b % 256) &&& 63

/-- `Square::from_index(i: usize)`: `(i as u8) & 63` — the cast to `u8`
is `% 256`, then the 6-bit mask. -/
def squareFromIndex (i : Nat) : SquareIdx := (i % 256) &&& 63

/-- `Square::file` (`self.0 % 8`). -/
def squareFile (s : SquareIdx) : Nat := s % 8

/-- `Square::rank` (`7 - self.0 / 8`). -/
def squareRank (s : SquareIdx) : Nat := 7 - s / 8

/-- `impl TryFrom<&str> for Square` from `src/square.rs`: requires at
least two characters; parses character 0 of the lowercased string as a
`File` and character 1 (of the original string) as a `Rank`; yields
`rank * 8 + file`.  Characters beyond the first two are never examined. -/
def squareTryFrom (s : List Char) : Except ChessError SquareIdx :=
  if s.length < 2 then .error (.UnknownSquare s)
  else
    match fileTryFromChar ((s.map toLowerChar).getD 0 ' ') with
    | .error e => .error e
    | .ok f =>
      match rankTryFromChar (s.getD 1 ' ') with
      | .error e => .error e
      | .ok r => .ok (r * 8 + f)

/-- `impl fmt::Display for Square`: file letter then rank number; a file
outside 0..7 would make the formatter fail (`none`). -/
def squareDisplay (s : SquareIdx) : Option (List Char) :=
  (fileDisplay (squareFile s)).map (fun fc => fc ++ rankDisplay (squareRank s))

/-- `Piece::to_string` from `src/piece.rs`: uppercase letter for White,
lowercased for Black. -/
def pieceToString (p : Piece) (c : Color) : List Char :=
  let s : Char :=
    match p with
    | .Pawn => 'P'
    | .Knight => 'N'
    | .Bishop => 'B'
    | .Rook => 'R'
    | .Queen => 'Q'
    | .King => 'K'
  match c with
  | .White => [s]
  | .Black => [toLowerChar s]

/-- Association-list model of `HashMap<usize, (Piece, Color)>`: `insert`
replaces an existing binding in place or appends a fresh one. -/
def insertA {α : Type} (k : Nat) (v : α) : List (Nat × α) → List (Nat × α)
  | [] => [(k, v)]
  | (k', v') :: t => if k' = k then (k, v) :: t else (k', v') :: insertA k v t

/-- Association-list model of `HashMap::get`. -/
def lookupA {α : Type} (k : Nat) : List (Nat × α) → Option α
  | [] => none
  | (k', v') :: t => if k' = k then some v' else lookupA k t

/-- The occupant map of a board: square index ↦ (piece, color). -/
abbrev PieceMap := List (Nat × Piece × Color)

/-- The piece-letter arms of the `match` in `BoardBuilder::try_from_fen`:
the piece and color selected per FEN letter, `none` for every other
character.  (Each arm of the source also fixes the literal plane index
`bb_idx`; that part of the table is `bbIdx` below, so the source's triple
for letter `c` is `(bbIdx p col, p, col)` where
`pieceOfChar c = some (p, col)`.) -/
def pieceOfChar (c : Char) : Option (Piece × Color) :=
  if c = 'P' then some (.Pawn, .White)
  else if c = 'N' then some (.Knight, .White)
  else if c = 'B' then some (.Bishop, .White)
  else if c = 'R' then some (.Rook, .White)
  else if c = 'Q' then some (.Queen, .White)
  else if c = 'K' then some (.King, .White)
  else if c = 'p' then some (.Pawn, .Black)
  else if c = 'n' then some (.Knight, .Black)
  else if c = 'b' then some (.Bishop, .Black)
  else if c = 'r' then some (.Rook, .Black)
  else if c = 'q' then some (.Queen, .Black)
  else if c = 'k' then some (.King, .Black)
  else none

/-- The plane index `bb_idx` fixed by each arm of that `match`: White
`Pawn..King` are 0–5 (letters `P N B R Q K`), Black are 6–11
(letters `p n b r q k`). -/
def bbIdx (p : Piece) (c : Color) : Nat :=
  match c, p with
  | .White, .Pawn => 0
  | .White, .Knight => 1
  | .White, .Bishop => 2
  | .White, .Rook => 3
  | .White, .Queen => 4
  | .White, .King => 5
  | .Black, .Pawn => 6
  | .Black, .Knight => 7
  | .Black, .Bishop => 8
  | .Black, .Rook => 9
  | .Black, .Queen => 10
  | .Black, .King => 11

/-- The digit arms `'1' | … | '8'` of that `match`. -/
def isFenDigit (c : Char) : Bool := '1' ≤ c && c ≤ '8'

/-- Mutable state of the placement-scanning loop in
`BoardBuilder::try_from_fen`: the 12 bitboard planes, the occupant map and
the rank/file cursor. -/
structure ScanState where
  bitboards : List Nat
  pieces : PieceMap
  rank : Nat
  file : Nat
deriving DecidableEq, Repr

/-- `bitboards[bb_idx] |= Bitboard::from_square(s)`. -/
def setPlaneBit (planes : List Nat) (idx sq : Nat) : List Nat :=
  planes.set idx (planes.getD idx 0 ||| (1 <<< sq))

/-- The placement loop of `BoardBuilder::try_from_fen` (lines 240–328 of
`src/board.rs`): `/` advances the rank and resets the file; a digit `d`
advances the file by `d` (`(c as usize) - 48`); a piece letter sets the
plane bit of `Square::from_index(rank*8 + file)`, inserts
`(rank*8 + file) ↦ (piece, color)` into the map and advances the file;
any other character aborts with `InvalidFen` carrying the whole FEN
string. -/
def scanPlacement (fen : List Char) : List Char → ScanState → Except ChessError ScanState
  | [], st => .ok st
  | c :: cs, st =>
    if c = '/' then
      scanPlacement fen cs { st with rank := st.rank + 1, file := 0 }
    else if isFenDigit c then
      scanPlacement fen cs { st with file := st.file + (c.toNat - 48) }
    else
      match pieceOfChar c with
      | some (p, col) =>
        scanPlacement fen cs
          { st with
            bitboards := setPlaneBit st.bitboards (bbIdx p col)
              (squareFromIndex (st.rank * 8 + st.file)),
            pieces := insertA (st.rank * 8 + st.file) (p, col) st.pieces,
            file := st.file + 1 }
      | none => .error (.InvalidFen fen)

/-- The all-empty initial scan state (`[EMPTY; 12]`, empty map, cursor at
rank 0 / file 0). -/
def initScan : ScanState :=
  { bitboards := List.replicate 12 0, pieces := [], rank := 0, file := 0 }

/-- `str::parse::<usize>()` on ASCII text: an optional leading `+`, then
one or more decimal digits, rejecting values that overflow 64-bit
`usize`. -/
def parseUsize (s : List Char) : Option Nat :=
  let digits := match s with
    | '+' :: t => t
    | t => t
  if digits = [] then none
  else if digits.all (fun c => '0' ≤ c && c ≤ '9') then
    let v := digits.foldl (fun a c => a * 10 + (c.toNat - 48)) 0
    if v < 2 ^ 64 then some v else none
  else none

/-- Lines 340–346 of `src/board.rs`: with exactly 6 fields the trailing two
are parsed as the half-move clock and full-move number (first parse failure
propagates); with any other accepted count both default to 0. -/
def parseClocks (parts : List (List Char)) : Except ChessError (Nat × Nat) :=
  if parts.length = 6 then
    match parseUsize (parts.getD 4 []) with
    | none => .error (.intParse (parts.getD 4 []))
    | some hm =>
      match parseUsize (parts.getD 5 []) with
      | none => .error (.intParse (parts.getD 5 []))
      | some fm => .ok (hm, fm)
  else .ok (0, 0)

/-- The en-passant field (lines 334–337 of `src/board.rs`): `-` is none,
anything else must parse as a square. -/
def epTryFrom (s : List Char) : Except ChessError (Option SquareIdx) :=
  if s = ['-'] then .ok none
  else (squareTryFrom s).map some

/-- The `BoardBuilder` struct from `src/board.rs` (optional fields exactly
as in the source). -/
structure BoardBuilder where
  bitboards : Option (List Nat)
  pieces : PieceMap
  side_to_move : Option Color
  castling_rights : Option CastlingRightsMask
  en_passante_square : Option SquareIdx
  halfmove_clock : Nat
  fullmove_number : Nat
deriving DecidableEq, Repr

/-- The `Board` struct from `src/board.rs`. -/
structure Board where
  bitboards : List Nat
  pieces : PieceMap
  side_to_move : Color
  castling_rights : CastlingRightsMask
  en_passante_square : Option SquareIdx
  halfmove_clock : Nat
  fullmove_number : Nat
deriving DecidableEq, Repr

/-- `BoardBuilder::try_build`: unwraps the three required optional fields,
failing with the source's `BoardSetup` messages. -/
def tryBuild (b : BoardBuilder) : Except ChessError Board :=
  match b.bitboards with
  | none => .error (.BoardSetup "Bitboards not initialized".data)
  | some planes =>
    match b.side_to_move with
    | none => .error (.BoardSetup "Side to move not initialized".data)
    | some stm =>
      match b.castling_rights with
      | none => .error (.BoardSetup [])
      | some cr =>
        .ok { bitboards := planes, pieces := b.pieces, side_to_move := stm,
              castling_rights := cr, en_passante_square := b.en_passante_square,
              halfmove_clock := b.halfmove_clock, fullmove_number := b.fullmove_number }

/-- Everything `BoardBuilder::try_from_fen` does after splitting on
whitespace: the length check (`< 4` fails with `InvalidFen` echoing the
whole input), the placement scan, and the four-to-six field parses in
source order. -/
def parseFields (parts : List (List Char)) (fen : List Char) : Except ChessError BoardBuilder :=
  if parts.length < 4 then .error (.InvalidFen fen)
  else
    match scanPlacement fen (parts.getD 0 []) initScan with
    | .error e => .error e
    | .ok st =>
      match colorTryFromStr (parts.getD 1 []) with
      | .error e => .error e
      | .ok stm =>
        match castlingTryFrom (parts.getD 2 []) with
        | .error e => .error e
        | .ok cr =>
          match epTryFrom (parts.getD 3 []) with
          | .error e => .error e
          | .ok ep =>
            match parseClocks parts with
            | .error e => .error e
            | .ok (hm, fm) =>
              .ok { bitboards := some st.bitboards, pieces := st.pieces,
                    side_to_move := some stm, castling_rights := some cr,
                    en_passante_square := ep, halfmove_clock := hm,
                    fullmove_number := fm }

/-- `BoardBuilder::try_from_fen` from `src/board.rs`. -/
def tryFromFen (fen : List Char) : Except ChessError BoardBuilder :=
  parseFields (splitWhitespace fen) fen

/-- `Board::try_from_fen`: `try_from_fen` followed by `try_build`. -/
def boardOfFen (fen : List Char) : Except ChessError Board :=
  match tryFromFen fen with
  | .error e => .error e
  | .ok b => tryBuild b

/-- `DEFAULT_BOARD_FEN` from `src/board.rs`. -/
def DEFAULT_BOARD_FEN : List Char :=
  "rnbqkbnr/pppppppp/8/8/8/8/PPPPPPPP/RNBQKBNR w KQkq - 0 1".data

/-- One row of `impl fmt::Display for Board`: the ` {8-rank} |` label at
field 0, then a ` X ` or ` . ` cell per field, then `|\n`. -/
def displayRow (pieces : PieceMap) (rank : Nat) : List Char :=
  ((List.range 8).foldl (fun acc field =>
    acc ++
    (if field = 0 then ' ' :: Nat.toDigits 10 (8 - rank) ++ " |".data else []) ++
    (match lookupA (rank * 8 + field) pieces with
     | some (p, c) => ' ' :: pieceToString p c ++ [' ']
     | none => " . ".data)) []) ++ "|\n".data

/-- `impl fmt::Display for Board` (lines 107–129 of `src/board.rs`): a
blank line, a frame line, eight board rows, the closing frame, the file
legend, and the `To move` trailer. -/
def boardDisplay (b : Board) : List Char :=
  "\n".data ++
  "   +------------------------+\n".data ++
  ((List.range 8).foldl (fun acc rank => acc ++ displayRow b.pieces rank) []) ++
  "   +------------------------+\n".data ++
  "     a  b  c  d  e  f  g  h\n".data ++
  "\n       To move: ".data ++ colorDisplay b.side_to_move ++
  "  (".data ++ Nat.toDigits 10 b.halfmove_clock ++ ", ".data ++
  Nat.toDigits 10 b.fullmove_number ++ ")\n".data

/-- Total extractor: the display text of a successfully parsed board
(empty for an error result). -/
def displayOfResult : Except ChessError Board → List Char
  | .ok b => boardDisplay b
  | .error _ => []

/-- Total extractor: the 12 planes of a successfully parsed board. -/
def planesOfResult : Except ChessError Board → List Nat
  | .ok b => b.bitboards
  | .error _ => []

/-- Total extractor: the occupant map of a successfully parsed board. -/
def piecesOfResult : Except ChessError Board → PieceMap
  | .ok b => b.pieces
  | .error _ => []

end Chessify

/-- Sanity: the repository's own unit tests for square parsing. -/
example : Chessify.squareTryFrom "h1".data = .ok 63 := by decide
example : Chessify.squareTryFrom "c8".data = .ok 2 := by decide
example : Chessify.squareTryFrom "E4".data = .ok 36 := by decide
example : (Chessify.squareTryFrom "a".data).isOk = false := by decide
example : (Chessify.squareTryFrom "a9".data).isOk = false := by decide
example : (Chessify.squareTryFrom "q4".data).isOk = false := by decide
example : Chessify.squareDisplay 63 = some "h1".data := by decide
example : Chessify.squareDisplay 2 = some "c8".data := by decide

/-- Sanity: the repository's own unit tests for castling parsing. -/
example : Chessify.castlingTryFrom ['Q', 'k'] = .ok 6 := by decide
example : Chessify.castlingTryFrom ['q'] = .ok 1 := by decide
example : Chessify.castlingTryFrom [] = .ok 0 := by decide
example : Chessify.castlingTryFrom ['K', 'q'] = .ok 9 := by decide
example : (Chessify.castlingTryFrom ['K', 'Q', 'b']).isOk = false := by decide

namespace Chessify

/-- C9: `Square::from_index` never errors and masks its argument to 6
bits — `Square::from_index(i).index() == i mod 64` for every `usize` `i`
(the `u8` cast composed with `& 63` is reduction modulo 64). -/
theorem c9_from_index_mod (i : Nat) : squareFromIndex i = i % 64 := by
  have h : (63 : Nat) = 2 ^ 6 - 1 := by norm_num
  calc squareFromIndex i = (i % 256) &&& 63 := rfl
    _ = (i % 256) % 64 := by rw [h, Nat.and_pow_two_sub_one_eq_mod]
    _ = i % 64 := Nat.mod_mod_of_dvd i (by norm_num)

/-- C5: for every square index `s < 64`, rendering the square and parsing
the text back succeeds and returns `s` (the Display is the file letter
followed by the human rank digit, and `Square::try_from` inverts it). -/
theorem c5_square_round_trip (s : Nat) (h : s < 64) :
    (squareDisplay s).map squareTryFrom = some (.ok s) := by
  revert h; revert s; decide

/-- C5 witness: the round trip at the concrete square `e4` (index 36). -/
theorem c5_square_round_trip_witness :
    (squareDisplay 36).map squareTryFrom = some (.ok 36) :=
  c5_square_round_trip 36 (by decide)

/-- C3 (failing input `-`): `CastlingRights::try_from` has no case for the
literal `-`, so it falls through to the error arm and returns
`InvalidFen("-")` instead of the zero mask required by the spec; the empty
string does produce the zero mask, and `KQkq`-only strings produce the
documented bits. -/
theorem c3_castling_dash_rejected :
    castlingTryFrom ['-'] = .error (.InvalidFen ['-']) ∧
    castlingTryFrom [] = .ok 0 ∧
    castlingTryFrom ['K'] = .ok 8 ∧ castlingTryFrom ['Q'] = .ok 4 ∧
    castlingTryFrom ['k'] = .ok 2 ∧ castlingTryFrom ['q'] = .ok 1 := by
  decide

/-- C4 (failing input): parsing `8/8/8/8/8/8/8/8 w - - 0 1` does not yield
an empty board — it fails outright, because the castling-rights field `-`
is rejected by `CastlingRights::try_from` (the error carries `-`). -/
theorem c4_empty_board_fen_fails :
    boardOfFen "8/8/8/8/8/8/8/8 w - - 0 1".data = .error (.InvalidFen ['-']) := by
  decide

end Chessify

namespace Chessify

/-- C1 (counterexample): parsing `DEFAULT_BOARD_FEN` succeeds, but
rendering the parsed board through `Display` does not reproduce the FEN
text. -/
theorem c1_render_parse_default_ne_fen :
    (boardOfFen DEFAULT_BOARD_FEN).isOk = true ∧
    displayOfResult (boardOfFen DEFAULT_BOARD_FEN) ≠ DEFAULT_BOARD_FEN := by
  decide

set_option maxRecDepth 20000 in
/-- C1 (amended): `Display` for `Board` is a pretty-printer, not a FEN
serializer — rendering the board parsed from `DEFAULT_BOARD_FEN` produces
exactly the framed ASCII diagram with rank labels, file legend and the
`To move` trailer. -/
theorem c1_render_parse_default_ascii :
    displayOfResult (boardOfFen DEFAULT_BOARD_FEN) =
      ("\n   +------------------------+\n 8 | r  n  b  q  k  b  n  r |\n 7 | p  p  p  p  p  p  p  p |\n 6 | .  .  .  .  .  .  .  . |\n 5 | .  .  .  .  .  .  .  . |\n 4 | .  .  .  .  .  .  .  . |\n 3 | .  .  .  .  .  .  .  . |\n 2 | P  P  P  P  P  P  P  P |\n 1 | R  N  B  Q  K  B  N  R |\n   +------------------------+\n     a  b  c  d  e  f  g  h\n\n       To move: W  (0, 1)\n").data := by
  decide

/-- C8 (counterexample): `Square::try_from` accepts the three-character
string `a1b`, returning square `a1` (index 56), although `a1b` is not a
two-character square name. -/
theorem c8_extra_chars_accepted :
    squareTryFrom ['a', '1', 'b'] = .ok 56 := by decide

/-- C8 (amended): `Square::try_from` validates only the *first two*
characters — a file letter `a`–`h` (case-insensitive) and a rank digit
`1`–`8` — ignoring everything after them: any longer string parses exactly
like its first two characters, input shorter than two characters is
rejected with an unknown-square error carrying the whole string, and a
two-character prefix is accepted iff its file and rank characters are
valid. -/
theorem c8_first_two_chars_validated :
    (∀ c0 c1 rest, squareTryFrom (c0 :: c1 :: rest) = squareTryFrom [c0, c1]) ∧
    (∀ s : List Char, s.length < 2 → squareTryFrom s = .error (.UnknownSquare s)) ∧
    (∀ c0 c1 rest, (squareTryFrom (c0 :: c1 :: rest)).isOk =
      ((fileTryFromChar (toLowerChar c0)).isOk && (rankTryFromChar c1).isOk)) := by
  have key : ∀ c0 c1 rest, squareTryFrom (c0 :: c1 :: rest) = squareTryFrom [c0, c1] := by
    intro c0 c1 rest
    simp only [squareTryFrom, List.length_cons, List.map_cons, List.getD_cons_zero,
      List.getD_cons_succ]
    rw [if_neg (by omega), if_neg (by omega)]
  refine ⟨key, ?_, ?_⟩
  · intro s hs
    rw [squareTryFrom, if_pos hs]
  · intro c0 c1 rest
    rw [key]
    simp only [squareTryFrom, List.length_cons, List.length_nil, List.map_cons, List.map_nil,
      List.getD_cons_zero, List.getD_cons_succ]
    rw [if_neg (by omega)]
    cases hf : fileTryFromChar (toLowerChar c0) <;>
      cases hr : rankTryFromChar c1 <;> simp [hf, hr, Except.isOk, Except.toBool]

/-- C8 (amended) witness: at the concrete inputs `a1b` (parses like `a1`,
accepted) and `a` (too short, rejected). -/
theorem c8_first_two_chars_validated_witness :
    squareTryFrom ['a', '1', 'b'] = squareTryFrom ['a', '1'] ∧
    squareTryFrom ['a'] = .error (.UnknownSquare ['a']) ∧
    (squareTryFrom ['a', '1', 'b']).isOk =
      ((fileTryFromChar (toLowerChar 'a')).isOk && (rankTryFromChar '1').isOk) :=
  ⟨c8_first_two_chars_validated.1 'a' '1' ['b'],
   c8_first_two_chars_validated.2.1 ['a'] (by decide),
   c8_first_two_chars_validated.2.2 'a' '1' ['b']⟩

end Chessify

namespace Chessify

/-- The claim's fixed 2-bit table, keyed by the two bits of a per-color
sub-field: bit 1 is kingside, bit 0 is queenside. -/
def statusOf (kingside queenside : Bool) : CastlingStatus :=
  match kingside, queenside with
  | false, false => .NotAvailable
  | false, true => .Queenside
  | true, false => .Kingside
  | true, true => .Both

/-- For 2-bit values, `CastlingStatus::from_u8` is exactly the claim's
table and never reaches the error branch. -/
lemma castlingStatusFromU8_lt_four {v : Nat} (hv : v < 4) :
    castlingStatusFromU8 v = some (statusOf (v.testBit 1) (v.testBit 0)) := by
  revert hv; revert v; decide

/-- A 2-bit value is determined by its two test bits. -/
lemma forColor_eq_statusOf (cr : Nat) :
    forColor cr .White = some (statusOf (cr.testBit 3) (cr.testBit 2)) ∧
    forColor cr .Black = some (statusOf (cr.testBit 1) (cr.testBit 0)) := by
  constructor
  · have hlt : (cr &&& 12) >>> 2 < 4 := by
      rw [Nat.shiftRight_eq_div_pow]
      have h12 : cr &&& 12 ≤ 12 := Nat.and_le_right
      omega
    rw [forColor, castlingStatusFromU8_lt_four hlt]
    have h1 : ((cr &&& 12) >>> 2).testBit 1 = cr.testBit 3 := by
      rw [Nat.testBit_shiftRight, Nat.testBit_and,
        show Nat.testBit 12 3 = true from by decide, Bool.and_true]
    have h0 : ((cr &&& 12) >>> 2).testBit 0 = cr.testBit 2 := by
      rw [Nat.testBit_shiftRight, Nat.testBit_and,
        show Nat.testBit 12 2 = true from by decide, Bool.and_true]
    rw [h1, h0]
  · have hlt : cr &&& 3 < 4 := Nat.lt_succ_of_le Nat.and_le_right
    rw [forColor, castlingStatusFromU8_lt_four hlt]
    have h1 : (cr &&& 3).testBit 1 = cr.testBit 1 := by
      rw [Nat.testBit_and, show Nat.testBit 3 1 = true from by decide, Bool.and_true]
    have h0 : (cr &&& 3).testBit 0 = cr.testBit 0 := by
      rw [Nat.testBit_and, show Nat.testBit 3 0 = true from by decide, Bool.and_true]
    rw [h1, h0]

/-- The mask accumulated by the `CastlingRights::try_from` scan: over a
string of `K`/`Q`/`k`/`q` letters it succeeds, and each of the four bits
records whether the corresponding letter occurred (or was already set in
the accumulator). -/
lemma castlingScan_bits (cs : List Char) :
    ∀ (s0 : List Char) (b : Nat),
      (∀ c ∈ cs, c = 'K' ∨ c = 'Q' ∨ c = 'k' ∨ c = 'q') →
      ∃ cr, castlingScan s0 b cs = .ok cr ∧
        cr.testBit 3 = (b.testBit 3 || decide ('K' ∈ cs)) ∧
        cr.testBit 2 = (b.testBit 2 || decide ('Q' ∈ cs)) ∧
        cr.testBit 1 = (b.testBit 1 || decide ('k' ∈ cs)) ∧
        cr.testBit 0 = (b.testBit 0 || decide ('q' ∈ cs)) := by
  induction cs with
  | nil =>
    intro s0 b _
    exact ⟨b, rfl, by simp, by simp, by simp, by simp⟩
  | cons c cs ih =>
    intro s0 b hmem
    have htail : ∀ c ∈ cs, c = 'K' ∨ c = 'Q' ∨ c = 'k' ∨ c = 'q' :=
      fun c hc => hmem c (List.mem_cons_of_mem _ hc)
    have hor : ∀ (m i : Nat), (b ||| m).testBit i = (b.testBit i || m.testBit i) :=
      fun m i => Nat.testBit_or b m i
    rcases hmem c (List.mem_cons_self c cs) with hc | hc | hc | hc <;> subst hc
    · obtain ⟨cr, hscan, h3, h2, h1, h0⟩ := ih s0 (b ||| (1 <<< 3)) htail
      refine ⟨cr, ?_, ?_, ?_, ?_, ?_⟩
      · rw [show castlingScan s0 b ('K' :: cs) = castlingScan s0 (b ||| (1 <<< 3)) cs
          from by simp [castlingScan]]
        exact hscan
      · rw [h3, hor, show Nat.testBit (1 <<< 3) 3 = true from by decide]
        simp [List.mem_cons]
      · rw [h2, hor, show Nat.testBit (1 <<< 3) 2 = false from by decide]
        simp [List.mem_cons]
      · rw [h1, hor, show Nat.testBit (1 <<< 3) 1 = false from by decide]
        simp [List.mem_cons]
      · rw [h0, hor, show Nat.testBit (1 <<< 3) 0 = false from by decide]
        simp [List.mem_cons]
    · obtain ⟨cr, hscan, h3, h2, h1, h0⟩ := ih s0 (b ||| (1 <<< 2)) htail
      refine ⟨cr, ?_, ?_, ?_, ?_, ?_⟩
      · rw [show castlingScan s0 b ('Q' :: cs) = castlingScan s0 (b ||| (1 <<< 2)) cs
          from by simp [castlingScan]]
        exact hscan
      · rw [h3, hor, show Nat.testBit (1 <<< 2) 3 = false from by decide]
        simp [List.mem_cons]
      · rw [h2, hor, show Nat.testBit (1 <<< 2) 2 = true from by decide]
        simp [List.mem_cons]
      · rw [h1, hor, show Nat.testBit (1 <<< 2) 1 = false from by decide]
        simp [List.mem_cons]
      · rw [h0, hor, show Nat.testBit (1 <<< 2) 0 = false from by decide]
        simp [List.mem_cons]
    · obtain ⟨cr, hscan, h3, h2, h1, h0⟩ := ih s0 (b ||| (1 <<< 1)) htail
      refine ⟨cr, ?_, ?_, ?_, ?_, ?_⟩
      · rw [show castlingScan s0 b ('k' :: cs) = castlingScan s0 (b ||| (1 <<< 1)) cs
          from by simp [castlingScan]]
        exact hscan
      · rw [h3, hor, show Nat.testBit (1 <<< 1) 3 = false from by decide]
        simp [List.mem_cons]
      · rw [h2, hor, show Nat.testBit (1 <<< 1) 2 = false from by decide]
        simp [List.mem_cons]
      · rw [h1, hor, show Nat.testBit (1 <<< 1) 1 = true from by decide]
        simp [List.mem_cons]
      · rw [h0, hor, show Nat.testBit (1 <<< 1) 0 = false from by decide]
        simp [List.mem_cons]
    · obtain ⟨cr, hscan, h3, h2, h1, h0⟩ := ih s0 (b ||| (1 <<< 0)) htail
      refine ⟨cr, ?_, ?_, ?_, ?_, ?_⟩
      · rw [show castlingScan s0 b ('q' :: cs) = castlingScan s0 (b ||| (1 <<< 0)) cs
          from by simp [castlingScan]]
        exact hscan
      · rw [h3, hor, show Nat.testBit (1 <<< 0) 3 = false from by decide]
        simp [List.mem_cons]
      · rw [h2, hor, show Nat.testBit (1 <<< 0) 2 = false from by decide]
        simp [List.mem_cons]
      · rw [h1, hor, show Nat.testBit (1 <<< 0) 1 = false from by decide]
        simp [List.mem_cons]
      · rw [h0, hor, show Nat.testBit (1 <<< 0) 0 = true from by decide]
        simp [List.mem_cons]

/-- C6: `CastlingRights::for_color` reads White's status from the upper
two bits and Black's from the lower two, through the fixed table
0 ↦ NotAvailable, 1 ↦ Queenside, 2 ↦ Kingside, 3 ↦ Both (bit 1 of the
sub-field is kingside, bit 0 queenside); it never reaches the
error/panic branch of `from_u8`, and on any rights string built from
`K`/`Q`/`k`/`q` the White status depends only on the presence of
`K`/`Q` and the Black status only on the presence of `k`/`q`. -/
theorem c6_for_color_bits :
    (∀ cr : Nat,
      forColor cr .White = some (statusOf (cr.testBit 3) (cr.testBit 2)) ∧
      forColor cr .Black = some (statusOf (cr.testBit 1) (cr.testBit 0))) ∧
    (∀ s : List Char, (∀ c ∈ s, c = 'K' ∨ c = 'Q' ∨ c = 'k' ∨ c = 'q') →
      ∃ cr, castlingTryFrom s = .ok cr ∧
        forColor cr .White = some (statusOf (decide ('K' ∈ s)) (decide ('Q' ∈ s))) ∧
        forColor cr .Black = some (statusOf (decide ('k' ∈ s)) (decide ('q' ∈ s)))) := by
  refine ⟨forColor_eq_statusOf, ?_⟩
  intro s hmem
  obtain ⟨cr, hscan, h3, h2, h1, h0⟩ := castlingScan_bits s s 0 hmem
  simp only [Nat.zero_testBit, Bool.false_or] at h3 h2 h1 h0
  refine ⟨cr, hscan, ?_, ?_⟩
  · rw [(forColor_eq_statusOf cr).1, h3, h2]
  · rw [(forColor_eq_statusOf cr).2, h1, h0]

/-- C6 witness: the theorem applied at the concrete mask 6 (`Qk`) and the
concrete rights string `Kq` (which parses to mask 9). -/
theorem c6_for_color_bits_witness :
    forColor 6 .White = some .Queenside ∧ forColor 9 .White = some .Kingside := by
  constructor
  · exact ((c6_for_color_bits.1 6).1).trans (by decide)
  · obtain ⟨cr, hcr, hw, _⟩ := c6_for_color_bits.2 ['K', 'q'] (by decide)
    have h9 : castlingTryFrom ['K', 'q'] = .ok 9 := by decide
    rw [h9] at hcr
    injection hcr with h
    subst h
    exact hw.trans (by decide)

end Chessify

namespace Chessify

/-- `isOk` characterization for `Except`. -/
lemma exceptIsOk_iff {ε α : Type} (e : Except ε α) : e.isOk = true ↔ ∃ a, e = .ok a := by
  cases e <;> simp [Except.isOk, Except.toBool]

/-- With a field count other than 6 the two clocks default to 0. -/
lemma parseClocks_of_ne_six {parts : List (List Char)} (h : parts.length ≠ 6) :
    parseClocks parts = .ok (0, 0) := by
  rw [parseClocks, if_neg h]

/-- Composition: when every stage of the field parse succeeds, the builder
is assembled from the stage results. -/
lemma parseFields_ok_of_stages {parts : List (List Char)} {fen : List Char}
    {st : ScanState} {stm : Color} {cr : CastlingRightsMask}
    {ep : Option SquareIdx} {hm fm : Nat}
    (h4 : ¬ parts.length < 4)
    (hscan : scanPlacement fen (parts.getD 0 []) initScan = .ok st)
    (hcol : colorTryFromStr (parts.getD 1 []) = .ok stm)
    (hcr : castlingTryFrom (parts.getD 2 []) = .ok cr)
    (hep : epTryFrom (parts.getD 3 []) = .ok ep)
    (hclk : parseClocks parts = .ok (hm, fm)) :
    parseFields parts fen =
      .ok { bitboards := some st.bitboards, pieces := st.pieces,
            side_to_move := some stm, castling_rights := some cr,
            en_passante_square := ep, halfmove_clock := hm,
            fullmove_number := fm } := by
  simp only [parseFields, if_neg h4, hscan, hcol, hcr, hep, hclk]

/-- Inversion: a successful field parse forces every stage to succeed, and
determines the builder's fields from the stage results. -/
lemma parseFields_ok_inv {parts : List (List Char)} {fen : List Char} {b : BoardBuilder}
    (h : parseFields parts fen = .ok b) :
    ¬ parts.length < 4 ∧
    (∃ st, scanPlacement fen (parts.getD 0 []) initScan = .ok st ∧
      b.bitboards = some st.bitboards ∧ b.pieces = st.pieces) ∧
    (∃ stm, colorTryFromStr (parts.getD 1 []) = .ok stm ∧ b.side_to_move = some stm) ∧
    (∃ cr, castlingTryFrom (parts.getD 2 []) = .ok cr ∧ b.castling_rights = some cr) ∧
    epTryFrom (parts.getD 3 []) = .ok b.en_passante_square ∧
    parseClocks parts = .ok (b.halfmove_clock, b.fullmove_number) := by
  unfold parseFields at h
  split at h
  · simp at h
  next h4 =>
    split at h
    · simp at h
    next st hscan =>
      split at h
      · simp at h
      next stm hcol =>
        split at h
        · simp at h
        next cr hcr =>
          split at h
          · simp at h
          next ep hep =>
            split at h
            · simp at h
            next hm fm hclk =>
              injection h with h
              subst h
              exact ⟨h4, ⟨st, hscan, rfl, rfl⟩, ⟨stm, hcol, rfl⟩, ⟨cr, hcr, rfl⟩, hep, hclk⟩

/-- Executable success test for the first four FEN fields (placement,
color, castling, en passant) of an input. -/
def firstFourOk (fen : List Char) : Bool :=
  (scanPlacement fen ((splitWhitespace fen).getD 0 []) initScan).isOk &&
  (colorTryFromStr ((splitWhitespace fen).getD 1 [])).isOk &&
  (castlingTryFrom ((splitWhitespace fen).getD 2 [])).isOk &&
  (epTryFrom ((splitWhitespace fen).getD 3 [])).isOk

/-- C7: fewer than 4 whitespace-separated fields (including the empty
string) fails with `InvalidFen` carrying the whole input; exactly 4 valid
fields succeed with both clocks 0; with 6 fields the trailing two are
parsed as the clocks and a non-integer there makes the parse fail. -/
theorem c7_field_count :
    (∀ fen : List Char, (splitWhitespace fen).length < 4 →
      tryFromFen fen = .error (.InvalidFen fen)) ∧
    (∀ (fen : List Char) (b : BoardBuilder), (splitWhitespace fen).length = 4 →
      tryFromFen fen = .ok b → b.halfmove_clock = 0 ∧ b.fullmove_number = 0) ∧
    (∀ fen : List Char, (splitWhitespace fen).length = 4 → firstFourOk fen = true →
      (tryFromFen fen).isOk = true) ∧
    (∀ (fen : List Char) (b : BoardBuilder), (splitWhitespace fen).length = 6 →
      tryFromFen fen = .ok b →
      parseUsize ((splitWhitespace fen).getD 4 []) = some b.halfmove_clock ∧
      parseUsize ((splitWhitespace fen).getD 5 []) = some b.fullmove_number) ∧
    (∀ fen : List Char, (splitWhitespace fen).length = 6 →
      (parseUsize ((splitWhitespace fen).getD 4 []) = none ∨
       parseUsize ((splitWhitespace fen).getD 5 []) = none) →
      (tryFromFen fen).isOk = false) := by
  refine ⟨?_, ?_, ?_, ?_, ?_⟩
  · intro fen hl
    rw [tryFromFen, parseFields, if_pos hl]
  · intro fen b hl hok
    obtain ⟨-, -, -, -, -, hclk⟩ := parseFields_ok_inv hok
    rw [parseClocks_of_ne_six (by omega)] at hclk
    injection hclk with h
    exact ⟨congrArg Prod.fst h.symm, congrArg Prod.snd h.symm⟩
  · intro fen hl hok
    rw [firstFourOk] at hok
    simp only [Bool.and_eq_true, exceptIsOk_iff] at hok
    obtain ⟨⟨⟨⟨st, hscan⟩, ⟨stm, hcol⟩⟩, ⟨cr, hcr⟩⟩, ⟨ep, hep⟩⟩ := hok
    rw [tryFromFen,
      parseFields_ok_of_stages (by omega) hscan hcol hcr hep (parseClocks_of_ne_six (by omega))]
    rfl
  · intro fen b hl hok
    obtain ⟨-, -, -, -, -, hclk⟩ := parseFields_ok_inv hok
    rw [parseClocks] at hclk
    rw [if_pos hl] at hclk
    rcases h4 : parseUsize ((splitWhitespace fen).getD 4 []) with - | hm
    · rw [h4] at hclk; simp at hclk
    · rw [h4] at hclk
      rcases h5 : parseUsize ((splitWhitespace fen).getD 5 []) with - | fm
      · rw [h5] at hclk; simp at hclk
      · rw [h5] at hclk
        injection hclk with h
        have h1 : hm = b.halfmove_clock := by simpa using congrArg Prod.fst h
        have h2 : fm = b.fullmove_number := by simpa using congrArg Prod.snd h
        exact ⟨by rw [h1], by rw [h2]⟩
  · intro fen hl hbad
    cases hres : tryFromFen fen with
    | error e => rfl
    | ok b =>
      exfalso
      obtain ⟨-, -, -, -, -, hclk⟩ := parseFields_ok_inv hres
      rw [parseClocks, if_pos hl] at hclk
      rcases hbad with h4 | h5
      · rw [h4] at hclk; simp at hclk
      · rcases hp4 : parseUsize ((splitWhitespace fen).getD 4 []) with - | hm
        · rw [hp4] at hclk; simp at hclk
        · rw [hp4, h5] at hclk; simp at hclk

/-- C7 witness: the theorem applied at concrete inputs — the empty string
(0 fields), a 4-field FEN that parses with zero clocks, and a 6-field FEN
whose fifth field is not a number. -/
theorem c7_field_count_witness :
    tryFromFen [] = .error (.InvalidFen []) ∧
    (tryFromFen "K7/8/8/8/8/8/8/8 w K e3".data).isOk = true ∧
    (tryFromFen "K7/8/8/8/8/8/8/8 w K e3 x 1".data).isOk = false := by
  refine ⟨?_, ?_, ?_⟩
  · exact c7_field_count.1 [] (by decide)
  · exact c7_field_count.2.2.1 "K7/8/8/8/8/8/8/8 w K e3".data (by decide) (by decide)
  · exact c7_field_count.2.2.2.2 "K7/8/8/8/8/8/8/8 w K e3 x 1".data (by decide)
      (Or.inl (by decide))

end Chessify

namespace Chessify

/-- C10: a 5-field FEN is parsed exactly like its first four fields — the
fifth field is never examined (the whole parse equals the parse of the
four-field truncation), the clocks default to 0, and the input is
accepted whenever the first four fields are valid. -/
theorem c10_five_fields_ignore_fifth :
    ∀ fen : List Char, (splitWhitespace fen).length = 5 →
      tryFromFen fen = parseFields ((splitWhitespace fen).take 4) fen ∧
      (∀ b : BoardBuilder, tryFromFen fen = .ok b →
        b.halfmove_clock = 0 ∧ b.fullmove_number = 0) ∧
      (firstFourOk fen = true → (tryFromFen fen).isOk = true) := by
  intro fen hl
  refine ⟨?_, ?_, ?_⟩
  · rcases hp : splitWhitespace fen with - | ⟨p0, - | ⟨p1, - | ⟨p2, - | ⟨p3, - | ⟨p4, - | ⟨p5, rest⟩⟩⟩⟩⟩⟩ <;>
      rw [hp] at hl <;> simp at hl
    rw [tryFromFen, hp]
    rfl
  · intro b hok
    obtain ⟨-, -, -, -, -, hclk⟩ := parseFields_ok_inv hok
    rw [parseClocks_of_ne_six (by omega)] at hclk
    injection hclk with h
    exact ⟨congrArg Prod.fst h.symm, congrArg Prod.snd h.symm⟩
  · intro hok
    rw [firstFourOk] at hok
    simp only [Bool.and_eq_true, exceptIsOk_iff] at hok
    obtain ⟨⟨⟨⟨st, hscan⟩, ⟨stm, hcol⟩⟩, ⟨cr, hcr⟩⟩, ⟨ep, hep⟩⟩ := hok
    rw [tryFromFen,
      parseFields_ok_of_stages (by omega) hscan hcol hcr hep (parseClocks_of_ne_six (by omega))]
    rfl

/-- C10 witness: at the concrete 5-field input whose fifth field is the
non-FEN text `junk`; it is accepted with both clocks 0. -/
theorem c10_five_fields_ignore_fifth_witness :
    (tryFromFen "K7/8/8/8/8/8/8/8 w K e3 junk".data).isOk = true :=
  (c10_five_fields_ignore_fifth "K7/8/8/8/8/8/8/8 w K e3 junk".data
    (by decide)).2.2 (by decide)

end Chessify

namespace Chessify

/-- Number of set bits of a plane (all planes built by the parser only
ever set bits below 64). -/
def bitcount (n : Nat) : Nat := ((Finset.range 64).filter (fun i => n.testBit i)).card

/-- Total number of set bits across the 12 planes. -/
def totalBits (planes : List Nat) : Nat :=
  ∑ j ∈ Finset.range 12, bitcount (planes.getD j 0)

/-- Bounds check for a placement scan: `true` iff every piece letter is
consumed with the rank cursor `< 8` and the file cursor `< 8` (the source
performs no such check; this is the hypothesis under which its board
invariant holds). -/
def scanInBounds : List Char → Nat → Nat → Bool
  | [], _, _ => true
  | c :: cs, rank, file =>
    if c = '/' then scanInBounds cs (rank + 1) 0
    else if isFenDigit c then scanInBounds cs rank (file + (c.toNat - 48))
    else
      match pieceOfChar c with
      | some _ => decide (rank < 8) && decide (file < 8) && scanInBounds cs rank (file + 1)
      | none => true

/-- Invariant of the placement-scanning loop: 12 planes, distinct occupant
keys bounded by the cursor position (hence `< 64`), and each plane bit set
exactly for the mapped occupants of its piece/color pair. -/
structure GoodScan (st : ScanState) : Prop where
  planes_len : st.bitboards.length = 12
  keys_nodup : (st.pieces.map Prod.fst).Nodup
  keys_lt : ∀ e ∈ st.pieces, e.1 < 8 * st.rank + min st.file 8 ∧ e.1 < 64
  corr : ∀ j, j < 12 → ∀ i,
    ((st.bitboards.getD j 0).testBit i = true ↔
      ∃ p c, lookupA i st.pieces = some (p, c) ∧ bbIdx p c = j)

end Chessify

namespace Chessify

section AssocLemmas

variable {α : Type} {k k' : Nat} {v : α} {l : List (Nat × α)}

/-- Looking up the freshly inserted key. -/
lemma lookupA_insertA_self (k : Nat) (v : α) (l : List (Nat × α)) :
    lookupA k (insertA k v l) = some v := by
  induction l with
  | nil => simp [insertA, lookupA]
  | cons e t ih =>
    by_cases h : e.1 = k
    · simp [insertA, h, lookupA]
    · simp only [insertA, lookupA]
      rw [if_neg h, lookupA, if_neg h]
      exact ih

/-- Looking up any other key is unchanged by an insert. -/
lemma lookupA_insertA_ne (h : k' ≠ k) :
    lookupA k' (insertA k v l) = lookupA k' l := by
  induction l with
  | nil =>
    simp only [insertA, lookupA]
    rw [if_neg (fun hh => h hh.symm)]
  | cons e t ih =>
    by_cases he : e.1 = k
    · subst he
      simp only [insertA, if_pos rfl, lookupA]
      rw [if_neg (fun hh => h hh.symm), if_neg (fun hh => h hh.symm)]
    · simp only [insertA, if_neg he, lookupA]
      by_cases hk' : e.1 = k'
      · rw [if_pos hk', if_pos hk']
      · rw [if_neg hk', if_neg hk']
        exact ih

/-- A member of an insert result is the new binding or an old member. -/
lemma mem_insertA {e : Nat × α} (h : e ∈ insertA k v l) : e = (k, v) ∨ e ∈ l := by
  induction l with
  | nil => simpa [insertA] using h
  | cons e' t ih =>
    by_cases he : e'.1 = k
    · rw [insertA, if_pos he] at h
      rcases List.mem_cons.mp h with h1 | h1
      · exact Or.inl h1
      · exact Or.inr (List.mem_cons_of_mem _ h1)
    · rw [insertA, if_neg he] at h
      rcases List.mem_cons.mp h with h1 | h1
      · exact Or.inr (by rw [h1]; exact List.mem_cons_self e' t)
      · rcases ih h1 with h2 | h2
        · exact Or.inl h2
        · exact Or.inr (List.mem_cons_of_mem _ h2)

/-- Inserting a key that is not present appends it to the key list. -/
lemma map_fst_insertA_of_not_mem (h : k ∉ l.map Prod.fst) :
    (insertA k v l).map Prod.fst = l.map Prod.fst ++ [k] := by
  induction l with
  | nil => simp [insertA]
  | cons e t ih =>
    simp only [List.map_cons, List.mem_cons] at h
    push_neg at h
    rw [insertA, if_neg (fun he => h.1 he.symm)]
    simp only [List.map_cons, List.cons_append]
    rw [ih h.2]

/-- A key that is not in the key list looks up to `none`. -/
lemma lookupA_eq_none_of_not_mem (h : k ∉ l.map Prod.fst) : lookupA k l = none := by
  induction l with
  | nil => rfl
  | cons e t ih =>
    simp only [List.map_cons, List.mem_cons] at h
    push_neg at h
    rw [lookupA, if_neg (fun he => h.1 he.symm)]
    exact ih h.2

/-- A successful lookup means the key is in the key list. -/
lemma mem_map_fst_of_lookupA_some (h : lookupA k l = some v) : k ∈ l.map Prod.fst := by
  induction l with
  | nil => simp [lookupA] at h
  | cons e t ih =>
    rw [lookupA] at h
    by_cases he : e.1 = k
    · simp [he]
    · rw [if_neg he] at h
      simp only [List.map_cons, List.mem_cons]
      exact Or.inr (ih h)

/-- A successful lookup returns a stored binding. -/
lemma mem_of_lookupA_some (h : lookupA k l = some v) : (k, v) ∈ l := by
  induction l with
  | nil => simp [lookupA] at h
  | cons e t ih =>
    rw [lookupA] at h
    by_cases he : e.1 = k
    · rw [if_pos he] at h
      injection h with h
      subst h; subst he
      exact List.mem_cons_self _ _
    · rw [if_neg he] at h
      exact List.mem_cons_of_mem _ (ih h)

/-- A key in the key list looks up successfully. -/
lemma lookupA_isSome_of_mem_map_fst (h : k ∈ l.map Prod.fst) :
    (lookupA k l).isSome = true := by
  induction l with
  | nil => simp at h
  | cons e t ih =>
    rw [lookupA]
    by_cases he : e.1 = k
    · rw [if_pos he]; rfl
    · rw [if_neg he]
      simp only [List.map_cons, List.mem_cons] at h
      rcases h with h | h
      · exact absurd h.symm he
      · exact ih h

end AssocLemmas

/-- `getD` of `List.set` at the written index. -/
lemma getD_set_self {l : List Nat} {i : Nat} {x : Nat} (h : i < l.length) :
    (l.set i x).getD i 0 = x := by
  induction l generalizing i with
  | nil => simp at h
  | cons a t ih =>
    cases i with
    | zero => rfl
    | succ n =>
      simp only [List.set_cons_succ, List.getD_cons_succ]
      exact ih (by simpa using h)

/-- `getD` of `List.set` at any other index. -/
lemma getD_set_ne {l : List Nat} {i j : Nat} {x : Nat} (h : i ≠ j) :
    (l.set i x).getD j 0 = l.getD j 0 := by
  induction l generalizing i j with
  | nil => simp [List.set]
  | cons a t ih =>
    cases i with
    | zero =>
      cases j with
      | zero => exact absurd rfl h
      | succ m => rfl
    | succ n =>
      cases j with
      | zero => rfl
      | succ m =>
        simp only [List.set_cons_succ, List.getD_cons_succ]
        exact ih (fun hh => h (by rw [hh]))

/-- `getD` of a replicated list. -/
lemma getD_replicate_zero (n j : Nat) : (List.replicate n (0 : Nat)).getD j 0 = 0 := by
  induction n generalizing j with
  | zero => rfl
  | succ m ih =>
    cases j with
    | zero => rfl
    | succ i => exact ih i

end Chessify

namespace Chessify

/-- Every plane index of the `bb_idx` table is below 12. -/
lemma bbIdx_lt (p : Piece) (c : Color) : bbIdx p c < 12 := by
  cases p <;> cases c <;> norm_num [bbIdx]

/-- An in-bounds placement scan preserves the board invariant. -/
lemma scanPlacement_good (cs : List Char) :
    ∀ (fen : List Char) (st st' : ScanState),
      scanInBounds cs st.rank st.file = true →
      GoodScan st →
      scanPlacement fen cs st = .ok st' →
      GoodScan st' := by
  induction cs with
  | nil =>
    intro fen st st' _ hg h
    rw [scanPlacement] at h
    injection h with h
    exact h ▸ hg
  | cons c cs ih =>
    intro fen st st' hib hg hscan
    rw [scanInBounds] at hib
    rw [scanPlacement] at hscan
    by_cases hc : c = '/'
    · rw [if_pos hc] at hib hscan
      refine ih fen _ st' hib ?_ hscan
      refine ⟨hg.planes_len, hg.keys_nodup, ?_, hg.corr⟩
      intro e he
      dsimp only at he ⊢
      obtain ⟨h1, h2⟩ := hg.keys_lt e he
      have hmin : min st.file 8 ≤ 8 := Nat.min_le_right _ _
      refine ⟨?_, h2⟩
      rw [show min 0 8 = (0 : Nat) from rfl]
      omega
    · rw [if_neg hc] at hib hscan
      by_cases hd : isFenDigit c = true
      · rw [if_pos hd] at hib hscan
        refine ih fen _ st' hib ?_ hscan
        refine ⟨hg.planes_len, hg.keys_nodup, ?_, hg.corr⟩
        intro e he
        dsimp only at he ⊢
        obtain ⟨h1, h2⟩ := hg.keys_lt e he
        have hmono : min st.file 8 ≤ min (st.file + (c.toNat - 48)) 8 :=
          min_le_min (Nat.le_add_right _ _) (le_refl 8)
        exact ⟨by omega, h2⟩
      · rw [if_neg hd] at hib hscan
        cases hpc : pieceOfChar c with
        | none =>
          rw [hpc] at hscan
          simp at hscan
        | some t =>
          obtain ⟨p, col⟩ := t
          rw [hpc] at hib hscan
          simp only [Bool.and_eq_true, decide_eq_true_eq] at hib
          obtain ⟨⟨hrank, hfile⟩, hib'⟩ := hib
          have hidx_lt : bbIdx p col < 12 := bbIdx_lt p col
          refine ih fen _ st' hib' ?_ hscan
          have hk64 : st.rank * 8 + st.file < 64 := by omega
          have hsq : squareFromIndex (st.rank * 8 + st.file) = st.rank * 8 + st.file := by
            rw [squareFromIndex, Nat.mod_eq_of_lt (by omega),
              show (63 : Nat) = 2 ^ 6 - 1 from rfl, Nat.and_pow_two_sub_one_eq_mod,
              Nat.mod_eq_of_lt (by omega)]
          have hfresh : st.rank * 8 + st.file ∉ st.pieces.map Prod.fst := by
            intro hmem
            obtain ⟨e, he, hke⟩ := List.mem_map.mp hmem
            obtain ⟨h1, -⟩ := hg.keys_lt e he
            have hminf : min st.file 8 = st.file := Nat.min_eq_left (by omega)
            omega
          have hplanes_len :
              (setPlaneBit st.bitboards (bbIdx p col) (squareFromIndex (st.rank * 8 + st.file))).length
                = 12 := by
            rw [setPlaneBit, List.length_set]
            exact hg.planes_len
          refine ⟨hplanes_len, ?_, ?_, ?_⟩
          · show ((insertA (st.rank * 8 + st.file) (p, col) st.pieces).map Prod.fst).Nodup
            rw [map_fst_insertA_of_not_mem hfresh, List.nodup_append]
            refine ⟨hg.keys_nodup, List.nodup_singleton _, ?_⟩
            intro a ha hb
            simp only [List.mem_singleton] at hb
            exact hfresh (hb ▸ ha)
          · intro e he
            dsimp only at he ⊢
            rcases mem_insertA he with h1 | h1
            · have hminf : min (st.file + 1) 8 = st.file + 1 := Nat.min_eq_left (by omega)
              rw [h1]
              exact ⟨by omega, hk64⟩
            · obtain ⟨h1', h2'⟩ := hg.keys_lt e h1
              have hmono : min st.file 8 ≤ min (st.file + 1) 8 :=
                min_le_min (Nat.le_add_right _ _) (le_refl 8)
              exact ⟨by omega, h2'⟩
          · intro j hj i
            dsimp only
            rw [hsq]
            by_cases hji : j = bbIdx p col
            · rw [hji]
              have hlen : bbIdx p col < st.bitboards.length := by
                rw [hg.planes_len]; exact hidx_lt
              rw [show (setPlaneBit st.bitboards (bbIdx p col)
                    (st.rank * 8 + st.file)).getD (bbIdx p col) 0 =
                  st.bitboards.getD (bbIdx p col) 0 ||| (1 <<< (st.rank * 8 + st.file))
                from getD_set_self hlen]
              by_cases hik : i = st.rank * 8 + st.file
              · subst hik
                constructor
                · intro _
                  exact ⟨p, col, lookupA_insertA_self _ _ _, rfl⟩
                · intro _
                  rw [Nat.testBit_or, Nat.one_shiftLeft, Nat.testBit_two_pow_self,
                    Bool.or_true]
              · rw [Nat.testBit_or, Nat.one_shiftLeft,
                  Nat.testBit_two_pow_of_ne (fun hh => hik hh.symm), Bool.or_false,
                  lookupA_insertA_ne hik]
                exact hg.corr (bbIdx p col) hidx_lt i
            · have hne : bbIdx p col ≠ j := fun hh => hji hh.symm
              rw [show (setPlaneBit st.bitboards (bbIdx p col) (st.rank * 8 + st.file)).getD j 0 =
                  st.bitboards.getD j 0 from getD_set_ne hne]
              by_cases hik : i = st.rank * 8 + st.file
              · subst hik
                constructor
                · intro htb
                  obtain ⟨p', c', hl, -⟩ := (hg.corr j hj _).mp htb
                  rw [lookupA_eq_none_of_not_mem hfresh] at hl
                  exact Option.noConfusion hl
                · rintro ⟨p', c', hl, hb⟩
                  rw [lookupA_insertA_self] at hl
                  injection hl with hl
                  rw [show p' = p from (congrArg Prod.fst hl).symm,
                    show c' = col from (congrArg Prod.snd hl).symm] at hb
                  exact absurd hb.symm hji
              · rw [lookupA_insertA_ne hik]
                exact hg.corr j hj i

end Chessify

namespace Chessify

/-- The initial scan state satisfies the invariant. -/
lemma initScan_good : GoodScan initScan := by
  refine ⟨rfl, List.nodup_nil, ?_, ?_⟩
  · intro e he
    simp [initScan] at he
  · intro j hj i
    constructor
    · intro htb
      rw [show initScan.bitboards = List.replicate 12 0 from rfl, getD_replicate_zero] at htb
      simp at htb
    · rintro ⟨p, c, hl, -⟩
      exact Option.noConfusion hl

/-- The plane an occupant key is mapped to (12, out of range, for a free
key): the fiber function of the bit-counting argument. -/
def keyPlane (m : PieceMap) (k : Nat) : Nat :=
  match lookupA k m with
  | some (p, c) => bbIdx p c
  | none => 12

/-- Counting: under the invariant, the total number of set bits across
the 12 planes is the number of occupant-map entries. -/
lemma good_counts {st : ScanState} (hg : GoodScan st) :
    totalBits st.bitboards = st.pieces.length := by
  classical
  have hkeys_card : (st.pieces.map Prod.fst).toFinset.card = st.pieces.length := by
    rw [List.toFinset_card_of_nodup hg.keys_nodup, List.length_map]
  have hf_lt : ∀ k ∈ (st.pieces.map Prod.fst).toFinset,
      keyPlane st.pieces k ∈ Finset.range 12 := by
    intro k hk
    have hs := lookupA_isSome_of_mem_map_fst (List.mem_toFinset.mp hk)
    rw [keyPlane]
    cases hl : lookupA k st.pieces with
    | none => rw [hl] at hs; simp at hs
    | some pc => exact Finset.mem_range.mpr (bbIdx_lt pc.1 pc.2)
  have hfiber : ∀ j, j < 12 →
      (Finset.range 64).filter (fun i => (st.bitboards.getD j 0).testBit i) =
      (st.pieces.map Prod.fst).toFinset.filter (fun k => keyPlane st.pieces k = j) := by
    intro j hj
    ext i
    simp only [Finset.mem_filter, Finset.mem_range]
    constructor
    · rintro ⟨hi64, htb⟩
      obtain ⟨p, c, hl, hb⟩ := (hg.corr j hj i).mp htb
      refine ⟨List.mem_toFinset.mpr (mem_map_fst_of_lookupA_some hl), ?_⟩
      rw [keyPlane, hl]
      exact hb
    · rintro ⟨hik, hfk⟩
      have hs := lookupA_isSome_of_mem_map_fst (List.mem_toFinset.mp hik)
      cases hl : lookupA i st.pieces with
      | none => rw [hl] at hs; simp at hs
      | some pc =>
        obtain ⟨p, c⟩ := pc
        rw [keyPlane, hl] at hfk
        exact ⟨(hg.keys_lt _ (mem_of_lookupA_some hl)).2,
          (hg.corr j hj i).mpr ⟨p, c, hl, hfk⟩⟩
  have hsum : totalBits st.bitboards = ∑ j ∈ Finset.range 12,
      ((st.pieces.map Prod.fst).toFinset.filter (fun k => keyPlane st.pieces k = j)).card := by
    rw [totalBits]
    refine Finset.sum_congr rfl ?_
    intro j hjr
    rw [bitcount, hfiber j (Finset.mem_range.mp hjr)]
  rw [hsum, ← Finset.card_eq_sum_card_fiberwise hf_lt, hkeys_card]

/-- Disjointness: under the invariant no bit index is set in two planes. -/
lemma good_disjoint {st : ScanState} (hg : GoodScan st) :
    ∀ i j1 j2, j1 < 12 → j2 < 12 →
      (st.bitboards.getD j1 0).testBit i = true →
      (st.bitboards.getD j2 0).testBit i = true → j1 = j2 := by
  intro i j1 j2 h1 h2 t1 t2
  obtain ⟨p1, c1, hl1, hb1⟩ := (hg.corr j1 h1 i).mp t1
  obtain ⟨p2, c2, hl2, hb2⟩ := (hg.corr j2 h2 i).mp t2
  rw [hl1] at hl2
  injection hl2 with h
  rw [← hb1, ← hb2, show p2 = p1 from (congrArg Prod.fst h).symm,
    show c2 = c1 from (congrArg Prod.snd h).symm]

/-- Key/bit correspondence: under the invariant a square index is an
occupant key iff exactly one plane has that bit set. -/
lemma good_key_iff {st : ScanState} (hg : GoodScan st) :
    ∀ i, i < 64 →
      ((lookupA i st.pieces).isSome = true ↔
        ∃ j, j < 12 ∧ (st.bitboards.getD j 0).testBit i = true ∧
          ∀ j', j' < 12 → (st.bitboards.getD j' 0).testBit i = true → j' = j) := by
  intro i _
  constructor
  · intro hs
    cases hl : lookupA i st.pieces with
    | none => rw [hl] at hs; simp at hs
    | some pc =>
      obtain ⟨p, c⟩ := pc
      refine ⟨bbIdx p c, bbIdx_lt p c,
        (hg.corr _ (bbIdx_lt p c) i).mpr ⟨p, c, hl, rfl⟩, ?_⟩
      intro j' hj' ht'
      obtain ⟨p', c', hl', hb'⟩ := (hg.corr j' hj' i).mp ht'
      rw [hl] at hl'
      injection hl' with h
      rw [← hb', show p' = p from (congrArg Prod.fst h).symm,
        show c' = c from (congrArg Prod.snd h).symm]
  · rintro ⟨j, hj, ht, -⟩
    obtain ⟨p, c, hl, -⟩ := (hg.corr j hj i).mp ht
    rw [hl]
    rfl

end Chessify

namespace Chessify

/-- C2 (counterexample): the parser performs no bounds check on the
placement cursor, so it accepts `P7/8/8/8/8/8/8/8/P w K -` (nine
rank-groups): the second white pawn is recorded in the occupant map under
key 64 while its plane bit wraps (`& 63`) onto bit 0, already set by the
first pawn — one set bit in total against two map entries. -/
theorem c2_counts_counterexample :
    (boardOfFen "P7/8/8/8/8/8/8/8/P w K -".data).isOk = true ∧
    totalBits (planesOfResult (boardOfFen "P7/8/8/8/8/8/8/8/P w K -".data)) = 1 ∧
    (piecesOfResult (boardOfFen "P7/8/8/8/8/8/8/8/P w K -".data)).length = 2 := by
  decide

/-- C2 (amended): for every accepted FEN whose placement scan stays in
bounds (every piece consumed with rank < 8 and file < 8 — in particular
every well-formed 8×8 placement field), the parsed board satisfies the
invariant: the total number of set bits across the 12 planes equals the
number of occupant-map entries, no bit index is set in two planes, and a
square index is a key of the map iff exactly one plane has that bit set. -/
theorem c2_plane_map_invariant :
    ∀ (fen : List Char) (bd : Board),
      boardOfFen fen = .ok bd →
      scanInBounds ((splitWhitespace fen).getD 0 []) 0 0 = true →
      totalBits bd.bitboards = bd.pieces.length ∧
      (∀ i j1 j2, j1 < 12 → j2 < 12 →
        (bd.bitboards.getD j1 0).testBit i = true →
        (bd.bitboards.getD j2 0).testBit i = true → j1 = j2) ∧
      (∀ i, i < 64 →
        ((lookupA i bd.pieces).isSome = true ↔
          ∃ j, j < 12 ∧ (bd.bitboards.getD j 0).testBit i = true ∧
            ∀ j', j' < 12 → (bd.bitboards.getD j' 0).testBit i = true → j' = j)) := by
  intro fen bd hok hib
  rw [boardOfFen] at hok
  cases htf : tryFromFen fen with
  | error e =>
    rw [htf] at hok
    simp at hok
  | ok b =>
    rw [htf] at hok
    dsimp only at hok
    obtain ⟨-, ⟨st, hscan, hbb, hbp⟩, ⟨stm, -, hbstm⟩, ⟨cr, -, hbcr⟩, -, -⟩ :=
      parseFields_ok_inv (show parseFields (splitWhitespace fen) fen = .ok b from htf)
    obtain ⟨bbb, bps, bstm, bcr, bep, bhm, bfm⟩ := b
    dsimp only at hbb hbp hbstm hbcr
    subst hbb
    subst hbp
    subst hbstm
    subst hbcr
    rw [show tryBuild ⟨some st.bitboards, st.pieces, some stm, some cr, bep, bhm, bfm⟩ =
        .ok ⟨st.bitboards, st.pieces, stm, cr, bep, bhm, bfm⟩ from rfl] at hok
    injection hok with hok
    have hgood : GoodScan st :=
      scanPlacement_good ((splitWhitespace fen).getD 0 []) fen initScan st hib initScan_good hscan
    have hplanes : bd.bitboards = st.bitboards := by rw [← hok]
    have hpieces : bd.pieces = st.pieces := by rw [← hok]
    rw [hplanes, hpieces]
    exact ⟨good_counts hgood, good_disjoint hgood, good_key_iff hgood⟩

/-- C2 (amended) witness: the invariant conclusion at the concrete
in-bounds FEN `K7/8/8/8/8/8/8/8 w K -`. -/
theorem c2_plane_map_invariant_witness :
    totalBits (planesOfResult (boardOfFen "K7/8/8/8/8/8/8/8 w K -".data)) =
      (piecesOfResult (boardOfFen "K7/8/8/8/8/8/8/8 w K -".data)).length := by
  obtain ⟨bd, hbd⟩ := (exceptIsOk_iff (boardOfFen "K7/8/8/8/8/8/8/8 w K -".data)).mp (by decide)
  have h := (c2_plane_map_invariant "K7/8/8/8/8/8/8/8 w K -".data bd hbd (by decide)).1
  rw [hbd]
  exact h

end Chessify
